import Mathlib

/-!
Verification of the `electricbubble/lru` cache library (Go).

The repository implements a family of fixed-capacity in-memory caches:
a single-threaded base engine (`unsafeCache`, arc.go / lru.go), a
lock-wrapping concurrent cache (`Cache`), a Two-Queue cache (`TwoQueueCache`,
2q.go) and an Adaptive Replacement Cache (`ARCCache`, arc.go).

Embedding conventions:
* The base engine couples an intrusive doubly-linked recency list with a
  `map[K]*list.Element` index; the list package itself
  (`github.com/electricbubble/lru/list`) is not part of the sources here.
  Modelled from the spec: §4.1 describes it as an ordered container with
  push-to-front / move-to-front / remove / back / front / length, all the
  base engine uses.  List + index are embedded jointly as a single Lean
  `List (K × V)` ordered newest-first (head = front of the Go list,
  last = back/oldest); the index is key membership in that list.
* Go `int` values that can go negative (`maxEntries` after `Resize`,
  the ARC parameter `p`) are embedded as `Int`; list lengths are `Nat`
  and are cast where the Go code compares them with an `int`.
* The eviction callback (`onEvicted`) never influences the cache state in
  the Go code (its presence is only tested right before calling it), so it
  is embedded as an *event log*: every operation additionally returns the
  list of `(key, value)` pairs the callback would be invoked with, in call
  order, when a callback is configured.  `Clear` ranges over the Go map in
  unspecified iteration order; the model fires its events in list order
  (newest first) — the claims checked below are insensitive to that order.
* Go's zero value `var v V` (used for ghost entries) is embedded as
  `default` from an `Inhabited` instance.
-/

namespace Lru

/-- Default capacity substituted by every constructor for a non-positive
`maxEntries` (const `defaultSize = 128` in lru.go). -/
def defaultSize : Int := 128

/-- State of the base engine `unsafeCache`: the capacity field `maxEntries`
and the recency list with its index, embedded as a newest-first list of
`(key, value)` pairs. -/
structure UnsafeCache (K V : Type) where
  maxEntries : Int
  entries : List (K × V)
  deriving Repr, DecidableEq

variable {K V : Type} [DecidableEq K]

/-- Lookup through the index `bucket`: the value of the first (in a
well-formed cache: the only) pair with the given key. -/
def lookupKey (k : K) : List (K × V) → Option V
  | [] => none
  | e :: t => if e.1 = k then some e.2 else lookupKey k t

/-- Removal of the list node holding `k` (first pair with key `k`). -/
def eraseKey (k : K) : List (K × V) → List (K × V)
  | [] => []
  | e :: t => if e.1 = k then t else e :: eraseKey k t

/-- The keys of a cache, newest first (internal helper; the public `Keys`
is oldest-first, see `UnsafeCache.keys`). -/
def keysOf (c : UnsafeCache K V) : List K := c.entries.map Prod.fst

/-- `NewUnsafeLru`: a fresh engine; non-positive capacity is replaced by
`defaultSize`. -/
def NewUnsafeLru (K V : Type) (maxEntries : Int) : UnsafeCache K V :=
  { maxEntries := if maxEntries ≤ 0 then defaultSize else maxEntries
    entries := [] }

/-- `unsafeCache.Contains`. -/
def UnsafeCache.contains (c : UnsafeCache K V) (k : K) : Bool :=
  (lookupKey k c.entries).isSome

/-- `unsafeCache.Peek`: read the value without touching recency order. -/
def UnsafeCache.peek (c : UnsafeCache K V) (k : K) : Option V :=
  lookupKey k c.entries

/-- `unsafeCache.Len`. -/
def UnsafeCache.len (c : UnsafeCache K V) : Nat := c.entries.length

/-- `unsafeCache.Keys`: oldest-first. -/
def UnsafeCache.keys (c : UnsafeCache K V) : List K :=
  (c.entries.map Prod.fst).reverse

/-- `unsafeCache.GetOldest`: the back node. -/
def UnsafeCache.getOldest (c : UnsafeCache K V) : Option (K × V) :=
  c.entries.getLast?

/-- `unsafeCache.Add`.  Existing key: move to front and update the value in
place, no eviction.  New key: push to front; if the length now exceeds
`maxEntries`, remove the back (oldest) node, firing the eviction event.
Returns (state, evicted flag, eviction events). -/
def UnsafeCache.add (c : UnsafeCache K V) (k : K) (v : V) :
    UnsafeCache K V × Bool × List (K × V) :=
  match lookupKey k c.entries with
  | some _ => ({ c with entries := (k, v) :: eraseKey k c.entries }, false, [])
  | none =>
    let pushed := (k, v) :: c.entries
    if (pushed.length : Int) > c.maxEntries then
      ({ c with entries := pushed.dropLast }, true, pushed.getLast?.toList)
    else
      ({ c with entries := pushed }, false, [])

/-- `unsafeCache.Get`: on a hit move the node to the front and return the
value; on a miss leave the cache unchanged. -/
def UnsafeCache.get (c : UnsafeCache K V) (k : K) :
    UnsafeCache K V × Option V :=
  match lookupKey k c.entries with
  | none => (c, none)
  | some v => ({ c with entries := (k, v) :: eraseKey k c.entries }, some v)

/-- `unsafeCache.Remove`: delete the node and index entry if present,
firing the eviction event with the removed pair. -/
def UnsafeCache.remove (c : UnsafeCache K V) (k : K) :
    UnsafeCache K V × Bool × List (K × V) :=
  match lookupKey k c.entries with
  | none => (c, false, [])
  | some v => ({ c with entries := eraseKey k c.entries }, true, [(k, v)])

/-- `unsafeCache.RemoveOldest`: evict the back node if any, firing the
eviction event. -/
def UnsafeCache.removeOldest (c : UnsafeCache K V) :
    UnsafeCache K V × Option (K × V) × List (K × V) :=
  match c.entries.getLast? with
  | none => (c, none, [])
  | some e => ({ c with entries := c.entries.dropLast }, some e, [e])

/-- `removeOldest` iterated `n` times (the loop body of `Resize`),
accumulating the eviction events. -/
def removeOldestN (c : UnsafeCache K V) : Nat → UnsafeCache K V × List (K × V)
  | 0 => (c, [])
  | n + 1 =>
    let r := c.removeOldest
    let rest := removeOldestN r.1 n
    (rest.1, r.2.2 ++ rest.2)

/-- `unsafeCache.Resize`: compute `diff = max(len - size, 0)`, call
`removeOldest` `diff` times, then unconditionally set the capacity to
`size`.  Returns (state, returned `evicted` count, eviction events). -/
def UnsafeCache.resize (c : UnsafeCache K V) (size : Int) :
    UnsafeCache K V × Int × List (K × V) :=
  let diff : Int :=
    if (c.entries.length : Int) - size < 0 then 0
    else (c.entries.length : Int) - size
  let r := removeOldestN c diff.toNat
  ({ r.1 with maxEntries := size }, diff, r.2)

/-- `unsafeCache.Clear`: fire the eviction event for every entry and reset
to empty.  (The Go code ranges over the index map in unspecified order; the
model uses list order.) -/
def UnsafeCache.clear (c : UnsafeCache K V) :
    UnsafeCache K V × List (K × V) :=
  ({ c with entries := [] }, c.entries)

/-! ### Concurrency wrapper (`Cache`, lru.go)

`Cache` holds one base engine behind a reader/writer lock and forwards
every call.  Locks have no observable effect in a sequential embedding, so
the wrapper is the delegation itself. -/

/-- `Cache`: the lock-wrapped base engine. -/
structure Cache (K V : Type) where
  lru : UnsafeCache K V
  deriving Repr, DecidableEq

/-- `Cache.Len`. -/
def Cache.len (c : Cache K V) : Nat := c.lru.len

/-- `Cache.Contains`. -/
def Cache.contains (c : Cache K V) (k : K) : Bool := c.lru.contains k

/-- `Cache.Keys`. -/
def Cache.keys (c : Cache K V) : List K := c.lru.keys

/-- `Cache.Clear`. -/
def Cache.clear (c : Cache K V) : Cache K V × List (K × V) :=
  let r := c.lru.clear
  (⟨r.1⟩, r.2)

/-! ### Two-Queue cache (`TwoQueueCache`, 2q.go) -/

/-- State of `TwoQueueCache`: total budget `maxEntries`, the derived
recent-arm target `recentEntries`, and the three internal engines. -/
structure TwoQueueCache (K V : Type) where
  maxEntries : Int
  recentEntries : Int
  recent : UnsafeCache K V
  frequent : UnsafeCache K V
  recentEvict : UnsafeCache K V
  deriving Repr, DecidableEq

/-- `TwoQueueCache.Len`: `|recent| + |frequent|` (ghosts excluded). -/
def TwoQueueCache.len (c : TwoQueueCache K V) : Nat :=
  c.recent.len + c.frequent.len

/-- `TwoQueueCache.Contains`: `frequent` then `recent`, never the ghosts. -/
def TwoQueueCache.contains (c : TwoQueueCache K V) (k : K) : Bool :=
  c.frequent.contains k || c.recent.contains k

/-- `TwoQueueCache.Peek`: `frequent` then `recent`, no recency effect. -/
def TwoQueueCache.peek (c : TwoQueueCache K V) (k : K) : Option V :=
  match c.frequent.peek k with
  | some v => some v
  | none => c.recent.peek k

/-- `TwoQueueCache.Keys`: frequent arm first, each oldest-first. -/
def TwoQueueCache.keys (c : TwoQueueCache K V) : List K :=
  c.frequent.keys ++ c.recent.keys

/-- `TwoQueueCache.Clear`: clears `recent`, `frequent`, `recentEvict` in
that order. -/
def TwoQueueCache.clear (c : TwoQueueCache K V) :
    TwoQueueCache K V × List (K × V) :=
  let r1 := c.recent.clear
  let r2 := c.frequent.clear
  let r3 := c.recentEvict.clear
  ({ c with recent := r1.1, frequent := r2.1, recentEvict := r3.1 },
    r1.2 ++ r2.2 ++ r3.2)

/-- `TwoQueueCache.ensureSpace`: no-op while `|recent|+|frequent|` is below
`maxEntries`; otherwise evict the oldest of `recent` into the ghost set
(key with zero value) when `recentLen > 0 && (recentLen > recentEntries ||
(recentLen == recentEntries && !recentEvict))`, else evict the oldest of
`frequent` outright.  (The `.getLast? = none` sub-branch is unreachable
under the `0 < recentLen` guard; the Go code would add the zero key.) -/
def TwoQueueCache.ensureSpace [Inhabited V] (c : TwoQueueCache K V)
    (recentEvictFlag : Bool) : TwoQueueCache K V × List (K × V) :=
  let recentLen := c.recent.len
  let freqLen := c.frequent.len
  if (recentLen : Int) + (freqLen : Int) < c.maxEntries then (c, [])
  else if 0 < recentLen ∧ ((recentLen : Int) > c.recentEntries ∨
      ((recentLen : Int) = c.recentEntries ∧ recentEvictFlag = false)) then
    let r := c.recent.removeOldest
    match r.2.1 with
    | some e =>
      let a := c.recentEvict.add e.1 (default : V)
      ({ c with recent := r.1, recentEvict := a.1 }, r.2.2 ++ a.2.2)
    | none => ({ c with recent := r.1 }, r.2.2)
  else
    let r := c.frequent.removeOldest
    ({ c with frequent := r.1 }, r.2.2)

/-- `TwoQueueCache.Add` (2q.go lines 68–99). -/
def TwoQueueCache.add [Inhabited V] (c : TwoQueueCache K V) (k : K) (v : V) :
    TwoQueueCache K V × List (K × V) :=
  if c.frequent.contains k then
    let r := c.frequent.add k v
    ({ c with frequent := r.1 }, r.2.2)
  else if c.recent.contains k then
    let r1 := c.recent.remove k
    let r2 := c.frequent.add k v
    ({ c with recent := r1.1, frequent := r2.1 }, r1.2.2 ++ r2.2.2)
  else if c.recentEvict.contains k then
    let e := c.ensureSpace true
    let r1 := e.1.recentEvict.remove k
    let r2 := e.1.frequent.add k v
    ({ e.1 with recentEvict := r1.1, frequent := r2.1 },
      e.2 ++ r1.2.2 ++ r2.2.2)
  else
    let e := c.ensureSpace false
    let r := e.1.recent.add k v
    ({ e.1 with recent := r.1 }, e.2 ++ r.2.2)

/-- `TwoQueueCache.Get`: `frequent` hit refreshes there; a `recent` hit is
promoted (removed from `recent`, added to `frequent`). -/
def TwoQueueCache.get (c : TwoQueueCache K V) (k : K) :
    TwoQueueCache K V × Option V × List (K × V) :=
  let rf := c.frequent.get k
  match rf.2 with
  | some v => ({ c with frequent := rf.1 }, some v, [])
  | none =>
    match c.recent.peek k with
    | some v =>
      let r1 := c.recent.remove k
      let r2 := c.frequent.add k v
      ({ c with recent := r1.1, frequent := r2.1 }, some v, r1.2.2 ++ r2.2.2)
    | none => (c, none, [])

/-- `TwoQueueCache.Remove`: tries `frequent`, `recent`, then the ghosts. -/
def TwoQueueCache.remove (c : TwoQueueCache K V) (k : K) :
    TwoQueueCache K V × Bool × List (K × V) :=
  let r1 := c.frequent.remove k
  if r1.2.1 then ({ c with frequent := r1.1 }, true, r1.2.2)
  else
    let r2 := c.recent.remove k
    if r2.2.1 then ({ c with recent := r2.1 }, true, r2.2.2)
    else
      let r3 := c.recentEvict.remove k
      if r3.2.1 then ({ c with recentEvict := r3.1 }, true, r3.2.2)
      else (c, false, [])

/-! ### Adaptive Replacement Cache (`ARCCache`, arc.go) -/

/-- State of `ARCCache`: capacity budget, adaptive parameter `p`, live
engines `t1`/`t2` and ghost engines `b1`/`b2`. -/
structure ARCCache (K V : Type) where
  maxEntries : Int
  p : Int
  t1 : UnsafeCache K V
  b1 : UnsafeCache K V
  t2 : UnsafeCache K V
  b2 : UnsafeCache K V
  deriving Repr, DecidableEq

/-- `NewARC`: non-positive capacity replaced by `defaultSize`; `p = 0`;
all four engines are fresh base engines of the (adjusted) capacity. -/
def NewARC (K V : Type) [DecidableEq K] (maxEntries : Int) : ARCCache K V :=
  { maxEntries := if maxEntries ≤ 0 then defaultSize else maxEntries
    p := 0
    t1 := NewUnsafeLru K V maxEntries
    b1 := NewUnsafeLru K V maxEntries
    t2 := NewUnsafeLru K V maxEntries
    b2 := NewUnsafeLru K V maxEntries }

/-- `ARCCache.Len`: `|t1| + |t2|`. -/
def ARCCache.len (c : ARCCache K V) : Nat := c.t1.len + c.t2.len

/-- `ARCCache.Contains`: `t1` or `t2`; ghosts never consulted. -/
def ARCCache.contains (c : ARCCache K V) (k : K) : Bool :=
  c.t1.contains k || c.t2.contains k

/-- `ARCCache.Peek`: `t1` then `t2`. -/
def ARCCache.peek (c : ARCCache K V) (k : K) : Option V :=
  match c.t1.peek k with
  | some v => some v
  | none => c.t2.peek k

/-- `ARCCache.Keys`: t1 keys then t2 keys, each oldest-first. -/
def ARCCache.keys (c : ARCCache K V) : List K := c.t1.keys ++ c.t2.keys

/-- `ARCCache.Clear`: clears t1, t2, b1, b2 in that order. -/
def ARCCache.clear (c : ARCCache K V) : ARCCache K V × List (K × V) :=
  let r1 := c.t1.clear
  let r2 := c.t2.clear
  let r3 := c.b1.clear
  let r4 := c.b2.clear
  ({ c with t1 := r1.1, t2 := r2.1, b1 := r3.1, b2 := r4.1 },
    r1.2 ++ r2.2 ++ r3.2 ++ r4.2)

/-- `ARCCache.replace`: evict from t1 when
`t1Len > 0 && (t1Len > p || (t1Len == p && b2ContainsKey))`, pushing the
evicted key (zero value) into b1; otherwise evict from t2 into b2. -/
def ARCCache.replace [Inhabited V] (c : ARCCache K V) (b2ContainsKey : Bool) :
    ARCCache K V × List (K × V) :=
  let t1Len := c.t1.len
  if 0 < t1Len ∧ ((t1Len : Int) > c.p ∨
      ((t1Len : Int) = c.p ∧ b2ContainsKey = true)) then
    let r := c.t1.removeOldest
    match r.2.1 with
    | some e =>
      let a := c.b1.add e.1 (default : V)
      ({ c with t1 := r.1, b1 := a.1 }, r.2.2 ++ a.2.2)
    | none => ({ c with t1 := r.1 }, r.2.2)
  else
    let r := c.t2.removeOldest
    match r.2.1 with
    | some e =>
      let a := c.b2.add e.1 (default : V)
      ({ c with t2 := r.1, b2 := a.1 }, r.2.2 ++ a.2.2)
    | none => ({ c with t2 := r.1 }, r.2.2)

/-- `ARCCache.Add` (arc.go lines 43–134): the five branches — t1 hit
(promote), t2 hit (update), b1 ghost hit (grow `p`, maybe `replace(false)`,
move into t2), b2 ghost hit (shrink `p`, maybe `replace(true)`, move into
t2), cold key (maybe `replace(false)`, trim ghosts, insert into t1). -/
def ARCCache.add [Inhabited V] (c : ARCCache K V) (k : K) (v : V) :
    ARCCache K V × List (K × V) :=
  if c.t1.contains k then
    let r1 := c.t1.remove k
    let r2 := c.t2.add k v
    ({ c with t1 := r1.1, t2 := r2.1 }, r1.2.2 ++ r2.2.2)
  else if c.t2.contains k then
    let r := c.t2.add k v
    ({ c with t2 := r.1 }, r.2.2)
  else if c.b1.contains k then
    let b1Len := c.b1.len
    let b2Len := c.b2.len
    let delta : Int := if b2Len > b1Len then ((b2Len / b1Len : Nat) : Int) else 1
    let p' : Int := if c.p + delta ≥ c.maxEntries then c.maxEntries else c.p + delta
    let c1 : ARCCache K V := { c with p := p' }
    let (c2, ev2) :=
      if (c1.t1.len : Int) + (c1.t2.len : Int) ≥ c1.maxEntries then c1.replace false
      else (c1, [])
    let r1 := c2.b1.remove k
    let r2 := c2.t2.add k v
    ({ c2 with b1 := r1.1, t2 := r2.1 }, ev2 ++ r1.2.2 ++ r2.2.2)
  else if c.b2.contains k then
    let b1Len := c.b1.len
    let b2Len := c.b2.len
    let delta : Int := if b1Len > b2Len then ((b1Len / b2Len : Nat) : Int) else 1
    let p' : Int := if delta ≥ c.p then 0 else c.p - delta
    let c1 : ARCCache K V := { c with p := p' }
    let (c2, ev2) :=
      if (c1.t1.len : Int) + (c1.t2.len : Int) ≥ c1.maxEntries then c1.replace true
      else (c1, [])
    let r1 := c2.b2.remove k
    let r2 := c2.t2.add k v
    ({ c2 with b2 := r1.1, t2 := r2.1 }, ev2 ++ r1.2.2 ++ r2.2.2)
  else
    let (c1, ev1) :=
      if (c.t1.len : Int) + (c.t2.len : Int) ≥ c.maxEntries then c.replace false
      else (c, [])
    let (c2, ev2) :=
      if (c1.b1.len : Int) > c1.maxEntries - c1.p then
        let r := c1.b1.removeOldest
        ({ c1 with b1 := r.1 }, r.2.2)
      else (c1, [])
    let (c3, ev3) :=
      if (c2.b2.len : Int) > c2.p then
        let r := c2.b2.removeOldest
        ({ c2 with b2 := r.1 }, r.2.2)
      else (c2, [])
    let r := c3.t1.add k v
    ({ c3 with t1 := r.1 }, ev1 ++ ev2 ++ ev3 ++ r.2.2)

/-- `ARCCache.Get`: a t1 hit is promoted into t2; a t2 hit refreshes;
ghosts are never consulted. -/
def ARCCache.get [Inhabited V] (c : ARCCache K V) (k : K) :
    ARCCache K V × Option V × List (K × V) :=
  match c.t1.peek k with
  | some v =>
    let r1 := c.t1.remove k
    let r2 := c.t2.add k v
    ({ c with t1 := r1.1, t2 := r2.1 }, some v, r1.2.2 ++ r2.2.2)
  | none =>
    let r := c.t2.get k
    match r.2 with
    | some v => ({ c with t2 := r.1 }, some v, [])
    | none => (c, none, [])

/-- `ARCCache.Remove`: tries t1, t2, b1, b2 in order. -/
def ARCCache.remove (c : ARCCache K V) (k : K) :
    ARCCache K V × Bool × List (K × V) :=
  let r1 := c.t1.remove k
  if r1.2.1 then ({ c with t1 := r1.1 }, true, r1.2.2)
  else
    let r2 := c.t2.remove k
    if r2.2.1 then ({ c with t2 := r2.1 }, true, r2.2.2)
    else
      let r3 := c.b1.remove k
      if r3.2.1 then ({ c with b1 := r3.1 }, true, r3.2.2)
      else
        let r4 := c.b2.remove k
        if r4.2.1 then ({ c with b2 := r4.1 }, true, r4.2.2)
        else (c, false, [])

/-- Folding `Add` over a list of pairs, collecting the returned `evicted`
flags (used to state properties of Add sequences). -/
def addAll (c : UnsafeCache K V) : List (K × V) → UnsafeCache K V × List Bool
  | [] => (c, [])
  | (k, v) :: rest =>
    let r := c.add k v
    let rr := addAll r.1 rest
    (rr.1, r.2.1 :: rr.2)

/-! ### Lemmas about the base engine -/

theorem lookupKey_isSome_iff (k : K) (l : List (K × V)) :
    (lookupKey k l).isSome = true ↔ k ∈ l.map Prod.fst := by
  induction l with
  | nil => simp [lookupKey]
  | cons e t ih =>
    by_cases h : e.1 = k
    · simp [lookupKey, h]
    · simp only [lookupKey, if_neg h, List.map_cons, List.mem_cons, ih]
      constructor
      · exact fun hm => Or.inr hm
      · rintro (hm | hm)
        · exact absurd hm.symm h
        · exact hm

theorem lookupKey_eq_none_iff (k : K) (l : List (K × V)) :
    lookupKey k l = none ↔ k ∉ l.map Prod.fst := by
  rw [← lookupKey_isSome_iff (V := V) k l]
  cases lookupKey k l <;> simp

theorem contains_iff_mem (c : UnsafeCache K V) (k : K) :
    c.contains k = true ↔ k ∈ keysOf c :=
  lookupKey_isSome_iff k c.entries

theorem contains_eq_false_iff (c : UnsafeCache K V) (k : K) :
    c.contains k = false ↔ k ∉ keysOf c := by
  rw [← contains_iff_mem]
  cases c.contains k <;> simp

theorem lookupKey_mem (k : K) (v : V) (l : List (K × V))
    (h : lookupKey k l = some v) : (k, v) ∈ l := by
  induction l with
  | nil => simp [lookupKey] at h
  | cons e t ih =>
    by_cases he : e.1 = k
    · rw [lookupKey, if_pos he] at h
      obtain ⟨a, b⟩ := e
      simp only [Option.some.injEq] at h
      subst h
      subst he
      exact List.mem_cons_self _ _
    · rw [lookupKey, if_neg he] at h
      exact List.mem_cons_of_mem _ (ih h)

theorem map_fst_eraseKey (k : K) (l : List (K × V)) :
    (eraseKey k l).map Prod.fst = (l.map Prod.fst).erase k := by
  induction l with
  | nil => simp [eraseKey]
  | cons e t ih =>
    by_cases h : e.1 = k
    · simp [eraseKey, h, List.erase_cons]
    · simp [eraseKey, h, List.erase_cons, ih]

theorem removeOldestN_entries (n : Nat) (c : UnsafeCache K V) :
    (removeOldestN c n).1.entries = c.entries.take (c.entries.length - n) ∧
    (removeOldestN c n).1.maxEntries = c.maxEntries := by
  induction n generalizing c with
  | zero => simp [removeOldestN]
  | succ n ih =>
    cases h : c.entries.getLast? with
    | none =>
      have he : c.entries = [] := List.getLast?_eq_none_iff.mp h
      simp [removeOldestN, UnsafeCache.removeOldest, h, ih, he]
    | some e =>
      have hne : c.entries ≠ [] := by
        intro hnil
        rw [hnil] at h
        simp [List.getLast?] at h
      have hlen : 1 ≤ c.entries.length := by
        cases he : c.entries with
        | nil => exact absurd he hne
        | cons a t => simp [he]
      simp only [removeOldestN, UnsafeCache.removeOldest, h]
      rcases ih { c with entries := c.entries.dropLast } with ⟨h1, h2⟩
      refine ⟨?_, h2⟩
      rw [h1]
      simp only [List.dropLast_eq_take, List.take_take, List.length_take]
      congr 1
      omega

theorem removeOldestN_events (n : Nat) (c : UnsafeCache K V) :
    (removeOldestN c n).2.length = min n c.entries.length := by
  induction n generalizing c with
  | zero => simp [removeOldestN]
  | succ n ih =>
    cases h : c.entries.getLast? with
    | none =>
      have he : c.entries = [] := List.getLast?_eq_none_iff.mp h
      simp [removeOldestN, UnsafeCache.removeOldest, h, ih, he]
    | some e =>
      have hne : c.entries ≠ [] := by
        intro hnil
        rw [hnil] at h
        simp [List.getLast?] at h
      have hlen : 1 ≤ c.entries.length := List.length_pos.mpr hne
      simp only [removeOldestN, UnsafeCache.removeOldest, h, List.length_append,
        List.length_cons, List.length_nil]
      rw [ih]
      simp only [List.length_dropLast]
      omega

theorem resize_entries (c : UnsafeCache K V) (size : Int) :
    (c.resize size).1.entries =
      c.entries.take (c.entries.length -
        (max ((c.entries.length : Int) - size) 0).toNat) ∧
    (c.resize size).1.maxEntries = size ∧
    (c.resize size).2.1 = max ((c.entries.length : Int) - size) 0 := by
  have hd : (if (c.entries.length : Int) - size < 0 then 0
      else (c.entries.length : Int) - size)
      = max ((c.entries.length : Int) - size) 0 := by
    split <;> omega
  simp only [UnsafeCache.resize, hd]
  exact ⟨(removeOldestN_entries _ _).1, by trivial, by trivial⟩

/-- After an `Add` with capacity at least 1, the added pair sits at the
front of the recency list and the capacity is untouched. -/
theorem add_head (c : UnsafeCache K V) (k : K) (v : V)
    (hcap : 1 ≤ c.maxEntries) :
    ∃ t, (c.add k v).1 =
      { maxEntries := c.maxEntries, entries := (k, v) :: t } := by
  cases h : lookupKey k c.entries with
  | some w => exact ⟨eraseKey k c.entries, by simp [UnsafeCache.add, h]⟩
  | none =>
    simp only [UnsafeCache.add, h]
    by_cases hev : ((((k, v) :: c.entries).length : Int) > c.maxEntries)
    · have hne : c.entries ≠ [] := by
        intro hnil
        rw [hnil] at hev
        simp only [List.length_cons, List.length_nil] at hev
        omega
      rw [if_pos hev]
      exact ⟨c.entries.dropLast, by simp [List.dropLast_cons_of_ne_nil hne]⟩
    · rw [if_neg hev]
      exact ⟨c.entries, rfl⟩

theorem one_le_len_of_contains (c : UnsafeCache K V) (k : K)
    (h : c.contains k = true) : 1 ≤ c.len := by
  rcases (contains_iff_mem c k).mp h with hm
  rcases List.mem_map.mp hm with ⟨e, he, -⟩
  exact List.length_pos.mpr (List.ne_nil_of_mem he)

theorem add_maxEntries (c : UnsafeCache K V) (k : K) (v : V) :
    (c.add k v).1.maxEntries = c.maxEntries := by
  cases h : lookupKey k c.entries with
  | some w => simp [UnsafeCache.add, h]
  | none =>
    simp only [UnsafeCache.add, h]
    split <;> rfl

theorem remove_maxEntries (c : UnsafeCache K V) (k : K) :
    (c.remove k).1.maxEntries = c.maxEntries := by
  cases h : lookupKey k c.entries with
  | some w => simp [UnsafeCache.remove, h]
  | none => simp [UnsafeCache.remove, h]

theorem removeOldest_maxEntries (c : UnsafeCache K V) :
    (c.removeOldest).1.maxEntries = c.maxEntries := by
  cases h : c.entries.getLast? with
  | some e => simp [UnsafeCache.removeOldest, h]
  | none => simp [UnsafeCache.removeOldest, h]

/-- `Add` preserves key distinctness. -/
theorem nodup_add (c : UnsafeCache K V) (k : K) (v : V)
    (h : (keysOf c).Nodup) : (keysOf (c.add k v).1).Nodup := by
  cases hl : lookupKey k c.entries with
  | some w =>
    have : keysOf (c.add k v).1 = k :: (keysOf c).erase k := by
      simp [UnsafeCache.add, hl, keysOf, map_fst_eraseKey]
    rw [this]
    refine List.Nodup.cons ?_ (h.erase k)
    intro hmem
    exact absurd ((h.mem_erase_iff).mp hmem).1 (by simp)
  | none =>
    have hk : k ∉ keysOf c := by
      have := (lookupKey_eq_none_iff k c.entries).mp hl
      simpa [keysOf] using this
    have hcons : (k :: keysOf c).Nodup := List.Nodup.cons hk h
    simp only [UnsafeCache.add, hl]
    split
    · have : keysOf { c with entries := ((k, v) :: c.entries).dropLast } =
          (k :: keysOf c).dropLast := by
        simp [keysOf, ← List.map_dropLast, List.map_cons]
        cases c.entries <;> simp
      rw [this]
      exact List.Nodup.sublist (List.dropLast_sublist _) hcons
    · simpa [keysOf] using hcons

/-- After `Remove(k)` on an engine without duplicate keys, `k` is gone. -/
theorem contains_remove_self (c : UnsafeCache K V) (k : K)
    (h : (keysOf c).Nodup) : ((c.remove k).1).contains k = false := by
  cases hl : lookupKey k c.entries with
  | none => simp [UnsafeCache.remove, hl, UnsafeCache.contains]
  | some w =>
    rw [contains_eq_false_iff]
    have : keysOf (c.remove k).1 = (keysOf c).erase k := by
      simp [UnsafeCache.remove, hl, keysOf, map_fst_eraseKey]
    rw [this]
    intro hmem
    exact absurd ((h.mem_erase_iff).mp hmem).1 (by simp)

/-- After `Add(k, v)` on an engine of capacity ≥ 1, `k` is resident. -/
theorem contains_add_self (c : UnsafeCache K V) (k : K) (v : V)
    (hcap : 1 ≤ c.maxEntries) : ((c.add k v).1).contains k = true := by
  obtain ⟨t, ht⟩ := add_head c k v hcap
  rw [ht]
  simp [UnsafeCache.contains, lookupKey]

/-- `RemoveOldest` introduces no key. -/
theorem contains_removeOldest_false (c : UnsafeCache K V) (k : K)
    (h : c.contains k = false) : ((c.removeOldest).1).contains k = false := by
  cases hl : c.entries.getLast? with
  | none => simpa [UnsafeCache.removeOldest, hl] using h
  | some e =>
    rw [contains_eq_false_iff] at h ⊢
    simp only [UnsafeCache.removeOldest, hl, keysOf, ← List.map_dropLast] at *
    intro hmem
    exact h (List.mem_map.mpr
      (by rcases List.mem_map.mp hmem with ⟨x, hx, hfx⟩
          exact ⟨x, (List.dropLast_sublist _).subset hx, hfx⟩))

/-! ### C1: ARC total-size invariant (violated by the code) -/

/-- C1 (code bug): the spec's size invariant `|t1| + |t2| ≤ maxEntries`
fails on the code.  Starting from `NewARC(1)` (capacity kept as 1), the
sequence `Add(1,10); Add(2,20); Add(1,30)` drives the cache into a state
with `Len() = |t1| + |t2| = 2 > 1 = maxEntries`: the third `Add` is a b1
ghost hit that first raises `p` to `maxEntries`, so `replace(false)`
chooses the t2 arm (`t1Len == p` and no bias), finds t2 empty, evicts
nothing, and the insert into t2 then overflows the total budget. -/
theorem arc_size_invariant_violated :
    (((((NewARC Nat Nat 1).add 1 10).1.add 2 20).1.add 1 30).1.len = 2) ∧
    (((((NewARC Nat Nat 1).add 1 10).1.add 2 20).1.add 1 30).1.maxEntries = 1) := by
  exact ⟨by decide, by decide⟩

/-! ### C8: `ensureSpace` of the Two-Queue cache -/

/-- C8: `ensureSpace(isGhostPromotion)` is a no-op when
`|recent| + |frequent| < maxEntries`; otherwise, when `|recent| > 0` and
(`|recent| > recentTarget` or (`|recent| == recentTarget` and not
`isGhostPromotion`)), it removes the oldest entry of `recent` and inserts
its key with the zero/default value into the ghost set; otherwise it
removes the oldest entry of `frequent` with no ghost-set insertion. -/
theorem ensureSpace_contract [Inhabited V] (c : TwoQueueCache K V) (g : Bool) :
    ((c.recent.len : Int) + (c.frequent.len : Int) < c.maxEntries →
      c.ensureSpace g = (c, [])) ∧
    (∀ e : K × V, ¬((c.recent.len : Int) + (c.frequent.len : Int) < c.maxEntries) →
      0 < c.recent.len →
      ((c.recent.len : Int) > c.recentEntries ∨
        ((c.recent.len : Int) = c.recentEntries ∧ g = false)) →
      c.recent.entries.getLast? = some e →
      (c.ensureSpace g).1.recent = (c.recent.removeOldest).1 ∧
      (c.ensureSpace g).1.recentEvict = (c.recentEvict.add e.1 (default : V)).1 ∧
      (c.ensureSpace g).1.frequent = c.frequent) ∧
    (¬((c.recent.len : Int) + (c.frequent.len : Int) < c.maxEntries) →
      ¬(0 < c.recent.len ∧ ((c.recent.len : Int) > c.recentEntries ∨
        ((c.recent.len : Int) = c.recentEntries ∧ g = false))) →
      (c.ensureSpace g).1.frequent = (c.frequent.removeOldest).1 ∧
      (c.ensureSpace g).1.recent = c.recent ∧
      (c.ensureSpace g).1.recentEvict = c.recentEvict) := by
  refine ⟨?_, ?_, ?_⟩
  · intro hlt
    simp [TwoQueueCache.ensureSpace, if_pos hlt]
  · intro e hge hpos hcond hlast
    simp only [TwoQueueCache.ensureSpace, if_neg hge, if_pos (And.intro hpos hcond),
      UnsafeCache.removeOldest, hlast]
    exact ⟨by trivial, by trivial, by trivial⟩
  · intro hge hncond
    simp only [TwoQueueCache.ensureSpace, if_neg hge, if_neg hncond]
    exact ⟨by trivial, by trivial, by trivial⟩

/-- C8 witness: a full cache (budget 2: one recent entry over a recent
target of 0, one frequent entry, ghost capacity 1) evicts the oldest
recent entry into the ghost set; the same state with the recent arm empty
instead evicts from the frequent arm. -/
theorem ensureSpace_contract_witness :
    ((({ maxEntries := 2, recentEntries := 0,
         recent := { maxEntries := 2, entries := [(1, 10)] },
         frequent := { maxEntries := 2, entries := [(2, 20)] },
         recentEvict := { maxEntries := 1, entries := [] } } :
        TwoQueueCache Nat Nat).ensureSpace false).1.recent =
          (({ maxEntries := 2, entries := [(1, 10)] } :
            UnsafeCache Nat Nat).removeOldest).1) ∧
    ((({ maxEntries := 2, recentEntries := 0,
         recent := { maxEntries := 2, entries := [(1, 10)] },
         frequent := { maxEntries := 2, entries := [(2, 20)] },
         recentEvict := { maxEntries := 1, entries := [] } } :
        TwoQueueCache Nat Nat).ensureSpace false).1.recentEvict =
          (({ maxEntries := 1, entries := [] } :
            UnsafeCache Nat Nat).add 1 (default : Nat)).1) := by
  have h := (ensureSpace_contract
    ({ maxEntries := 2, recentEntries := 0,
       recent := { maxEntries := 2, entries := [(1, 10)] },
       frequent := { maxEntries := 2, entries := [(2, 20)] },
       recentEvict := { maxEntries := 1, entries := [] } } :
      TwoQueueCache Nat Nat) false).2.1 (1, 10)
    (by decide) (by decide) (by decide) (by decide)
  exact ⟨h.1, h.2.1⟩

/-! ### Lemmas about `ARCCache.replace` -/

theorem replace_p [Inhabited V] (c : ARCCache K V) (b : Bool) :
    (c.replace b).1.p = c.p := by
  unfold ARCCache.replace
  dsimp only
  split
  · cases hl : (c.t1.removeOldest).2.1 <;> simp [hl]
  · cases hl : (c.t2.removeOldest).2.1 <;> simp [hl]

theorem replace_maxEntries [Inhabited V] (c : ARCCache K V) (b : Bool) :
    (c.replace b).1.maxEntries = c.maxEntries := by
  unfold ARCCache.replace
  dsimp only
  split
  · cases hl : (c.t1.removeOldest).2.1 <;> simp [hl]
  · cases hl : (c.t2.removeOldest).2.1 <;> simp [hl]

theorem replace_t1_contains [Inhabited V] (c : ARCCache K V) (b : Bool) (k : K)
    (h : c.t1.contains k = false) :
    (c.replace b).1.t1.contains k = false := by
  unfold ARCCache.replace
  dsimp only
  split
  · cases hl : (c.t1.removeOldest).2.1 <;>
      simpa [hl] using contains_removeOldest_false c.t1 k h
  · cases hl : (c.t2.removeOldest).2.1 <;> simpa [hl] using h

theorem replace_b1_nodup [Inhabited V] (c : ARCCache K V) (b : Bool)
    (h : (keysOf c.b1).Nodup) :
    (keysOf (c.replace b).1.b1).Nodup := by
  unfold ARCCache.replace
  dsimp only
  split
  · cases hl : (c.t1.removeOldest).2.1 with
    | none => simpa [hl] using h
    | some e => simpa [hl] using nodup_add c.b1 e.1 (default : V) h
  · cases hl : (c.t2.removeOldest).2.1 <;> simpa [hl] using h

theorem replace_t2_maxEntries [Inhabited V] (c : ARCCache K V) (b : Bool) :
    (c.replace b).1.t2.maxEntries = c.t2.maxEntries := by
  unfold ARCCache.replace
  dsimp only
  split
  · cases hl : (c.t1.removeOldest).2.1 <;> simp [hl]
  · cases hl : (c.t2.removeOldest).2.1 <;>
      simp [hl, removeOldest_maxEntries]

/-! ### C7: ARC `Add` on a b1 ghost hit -/

/-- C7: when `Add(k, v)` finds `k` absent from t1 and t2 but present in b1
(no duplicate b1 keys; t2's capacity is the shared `maxEntries ≥ 1`):
`p` becomes `min(p + max(1, |b2| / |b1|), maxEntries)` — so a ghost hit
raises `p` by at least 1 whenever `p < maxEntries` — `k` is removed from
b1 and inserted into t2 (and is not in t1), and `replace(false)` runs
exactly when `|t1| + |t2| ≥ maxEntries`: the final state factors through
`replace false` in that case and leaves t1/b2 untouched otherwise. -/
theorem arc_ghost_b1_hit [Inhabited V] (c : ARCCache K V) (k : K) (v : V)
    (h1 : c.t1.contains k = false) (h2 : c.t2.contains k = false)
    (h3 : c.b1.contains k = true) (hb1 : (keysOf c.b1).Nodup)
    (ht2cap : c.t2.maxEntries = c.maxEntries) (hmax : 1 ≤ c.maxEntries) :
    ((c.add k v).1.p =
      min (c.p + max 1 ((c.b2.len / c.b1.len : Nat) : Int)) c.maxEntries) ∧
    (c.p < c.maxEntries → c.p + 1 ≤ (c.add k v).1.p) ∧
    ((c.add k v).1.b1.contains k = false) ∧
    ((c.add k v).1.t2.contains k = true) ∧
    ((c.add k v).1.t1.contains k = false) ∧
    (¬((c.t1.len : Int) + (c.t2.len : Int) ≥ c.maxEntries) →
      (c.add k v).1 = { c with
        p := min (c.p + max 1 ((c.b2.len / c.b1.len : Nat) : Int)) c.maxEntries,
        b1 := (c.b1.remove k).1,
        t2 := (c.t2.add k v).1 }) ∧
    (((c.t1.len : Int) + (c.t2.len : Int) ≥ c.maxEntries) →
      (c.add k v).1 =
        (let cRep : ARCCache K V :=
          (({ c with
              p := min (c.p + max 1 ((c.b2.len / c.b1.len : Nat) : Int))
                c.maxEntries } : ARCCache K V).replace false).1
         { cRep with b1 := (cRep.b1.remove k).1, t2 := (cRep.t2.add k v).1 })) := by
  have hb1len : 1 ≤ c.b1.len := one_le_len_of_contains _ _ h3
  have hdelta : (if c.b2.len > c.b1.len
        then ((c.b2.len / c.b1.len : Nat) : Int) else 1)
      = max 1 ((c.b2.len / c.b1.len : Nat) : Int) := by
    split
    · have h1d : 1 ≤ c.b2.len / c.b1.len :=
        (Nat.one_le_div_iff hb1len).mpr (le_of_lt (by assumption))
      have hcast : (1 : Int) ≤ ((c.b2.len / c.b1.len : Nat) : Int) := by
        exact_mod_cast h1d
      omega
    · have hle : c.b2.len ≤ c.b1.len := le_of_not_lt (by assumption)
      have h1d : c.b2.len / c.b1.len ≤ 1 := by
        calc c.b2.len / c.b1.len ≤ c.b1.len / c.b1.len :=
              Nat.div_le_div_right hle
          _ = 1 := Nat.div_self hb1len
      have hcast : ((c.b2.len / c.b1.len : Nat) : Int) ≤ 1 := by
        exact_mod_cast h1d
      have h0 : (0 : Int) ≤ ((c.b2.len / c.b1.len : Nat) : Int) := by positivity
      omega
  have hone : (1 : Int) ≤ max 1 ((c.b2.len / c.b1.len : Nat) : Int) :=
    le_max_left _ _
  have hp' : (if c.p + (if c.b2.len > c.b1.len
          then ((c.b2.len / c.b1.len : Nat) : Int) else 1) ≥ c.maxEntries
        then c.maxEntries
        else c.p + (if c.b2.len > c.b1.len
          then ((c.b2.len / c.b1.len : Nat) : Int) else 1))
      = min (c.p + max 1 ((c.b2.len / c.b1.len : Nat) : Int)) c.maxEntries := by
    rw [hdelta]
    split <;> omega
  by_cases hsum : ((c.t1.len : Int) + (c.t2.len : Int) ≥ c.maxEntries)
  · have hadd : (c.add k v).1 =
        (let cRep : ARCCache K V :=
          (({ c with
              p := min (c.p + max 1 ((c.b2.len / c.b1.len : Nat) : Int))
                c.maxEntries } : ARCCache K V).replace false).1
         { cRep with b1 := (cRep.b1.remove k).1, t2 := (cRep.t2.add k v).1 }) := by
      rw [← hp']
      simp only [ARCCache.add, h1, h2, h3, Bool.false_eq_true, if_false, if_true]
      rw [if_pos hsum]
    have hmin : c.p < c.maxEntries →
        c.p + 1 ≤ min (c.p + max 1 ((c.b2.len / c.b1.len : Nat) : Int))
          c.maxEntries := by
      intro hlt
      omega
    rw [hadd]
    refine ⟨?_, ?_, ?_, ?_, ?_, fun hn => absurd hsum hn, fun _ => rfl⟩
    · show (_ : ARCCache K V).p = _
      simp only [replace_p]
    · intro hlt
      have := hmin hlt
      show c.p + 1 ≤ (_ : ARCCache K V).p
      simpa only [replace_p] using this
    · exact contains_remove_self _ k (replace_b1_nodup _ false hb1)
    · refine contains_add_self _ k v ?_
      rw [replace_t2_maxEntries]
      show 1 ≤ c.t2.maxEntries
      omega
    · exact replace_t1_contains _ false k h1
  · have hadd : (c.add k v).1 = { c with
        p := min (c.p + max 1 ((c.b2.len / c.b1.len : Nat) : Int)) c.maxEntries,
        b1 := (c.b1.remove k).1,
        t2 := (c.t2.add k v).1 } := by
      rw [← hp']
      simp only [ARCCache.add, h1, h2, h3, Bool.false_eq_true, if_false, if_true]
      rw [if_neg hsum]
    rw [hadd]
    refine ⟨rfl, ?_, ?_, ?_, h1, fun _ => rfl, fun hs => absurd hs hsum⟩
    · intro hlt
      show c.p + 1 ≤ min (c.p + max 1 ((c.b2.len / c.b1.len : Nat) : Int))
        c.maxEntries
      omega
    · exact contains_remove_self c.b1 k hb1
    · exact contains_add_self c.t2 k v (by omega)

/-- C7 witness: re-adding key 1 (alive in b1 after having been evicted
from t1) to a full capacity-1 ARC raises `p` from 0 to 1 and lands the
key in t2. -/
theorem arc_ghost_b1_hit_witness :
    (let c : ARCCache Nat Nat :=
      { maxEntries := 1, p := 0,
        t1 := { maxEntries := 1, entries := [(2, 20)] },
        b1 := { maxEntries := 1, entries := [(1, 0)] },
        t2 := { maxEntries := 1, entries := [] },
        b2 := { maxEntries := 1, entries := [] } }
     ((c.add 1 30).1.p =
        min (c.p + max 1 ((c.b2.len / c.b1.len : Nat) : Int)) c.maxEntries) ∧
      (c.p < c.maxEntries → c.p + 1 ≤ (c.add 1 30).1.p) ∧
      ((c.add 1 30).1.b1.contains 1 = false) ∧
      ((c.add 1 30).1.t2.contains 1 = true) ∧
      ((c.add 1 30).1.t1.contains 1 = false)) := by
  have h := arc_ghost_b1_hit
    ({ maxEntries := 1, p := 0,
       t1 := { maxEntries := 1, entries := [(2, 20)] },
       b1 := { maxEntries := 1, entries := [(1, 0)] },
       t2 := { maxEntries := 1, entries := [] },
       b2 := { maxEntries := 1, entries := [] } } : ARCCache Nat Nat) 1 30
    (by decide) (by decide) (by decide) (by decide) (by decide) (by decide)
  exact ⟨h.1, h.2.1, h.2.2.1, h.2.2.2.1, h.2.2.2.2.1⟩

/-! ### C10: promotions fire the eviction callback -/

theorem lookup_eq_none_of_contains_false (c : UnsafeCache K V) (k : K)
    (h : c.contains k = false) : lookupKey k c.entries = none := by
  rw [lookupKey_eq_none_iff]
  exact (contains_eq_false_iff c k).mp h

theorem contains_true_of_peek (c : UnsafeCache K V) (k : K) (w : V)
    (h : c.peek k = some w) : c.contains k = true := by
  unfold UnsafeCache.peek at h
  unfold UnsafeCache.contains
  rw [h]
  rfl

/-- C10: with an eviction callback configured, promoting a key from the
recency arm to the frequency arm fires the callback with that key and its
stored value even though the key stays resident: a 2Q `Get` or `Add`
hitting `recent`, and an ARC `Add` or `Get` hitting t1, each promote via
`recent.Remove` / `t1.Remove`, whose `removeElement` invokes `onEvicted`;
the event `(k, w)` appears in the operation's callback log while
`Contains(k)` still reports true afterwards. -/
theorem promotion_fires_eviction_callback [Inhabited V] :
    (∀ (c : TwoQueueCache K V) (k : K) (w : V),
      c.frequent.contains k = false → c.recent.peek k = some w →
      1 ≤ c.frequent.maxEntries →
      (k, w) ∈ (c.get k).2.2 ∧ (c.get k).1.contains k = true) ∧
    (∀ (c : TwoQueueCache K V) (k : K) (w v : V),
      c.frequent.contains k = false → c.recent.peek k = some w →
      1 ≤ c.frequent.maxEntries →
      (k, w) ∈ (c.add k v).2 ∧ (c.add k v).1.contains k = true) ∧
    (∀ (c : ARCCache K V) (k : K) (w v : V),
      c.t1.peek k = some w → 1 ≤ c.t2.maxEntries →
      (k, w) ∈ (c.add k v).2 ∧ (c.add k v).1.contains k = true) ∧
    (∀ (c : ARCCache K V) (k : K) (w : V),
      c.t1.peek k = some w → 1 ≤ c.t2.maxEntries →
      (k, w) ∈ (c.get k).2.2 ∧ (c.get k).1.contains k = true) := by
  refine ⟨?_, ?_, ?_, ?_⟩
  · intro c k w hf hr hcap
    have hfl : lookupKey k c.frequent.entries = none :=
      lookup_eq_none_of_contains_false _ _ hf
    have hrl : lookupKey k c.recent.entries = some w := hr
    simp only [TwoQueueCache.get, UnsafeCache.get, UnsafeCache.peek, hfl, hrl,
      UnsafeCache.remove]
    constructor
    · exact List.mem_append_left _ (List.mem_singleton.mpr rfl)
    · simp only [TwoQueueCache.contains, contains_add_self c.frequent k w hcap,
        Bool.true_or]
  · intro c k w v hf hr hcap
    have hrc : c.recent.contains k = true := contains_true_of_peek _ _ _ hr
    have hrl : lookupKey k c.recent.entries = some w := hr
    simp only [TwoQueueCache.add, hf, hrc, Bool.false_eq_true, if_false, if_true,
      UnsafeCache.remove, hrl]
    constructor
    · exact List.mem_append_left _ (List.mem_singleton.mpr rfl)
    · simp only [TwoQueueCache.contains, contains_add_self c.frequent k v hcap,
        Bool.true_or]
  · intro c k w v ht hcap
    have htc : c.t1.contains k = true := contains_true_of_peek _ _ _ ht
    have htl : lookupKey k c.t1.entries = some w := ht
    simp only [ARCCache.add, htc, if_true, UnsafeCache.remove, htl]
    constructor
    · exact List.mem_append_left _ (List.mem_singleton.mpr rfl)
    · simp only [ARCCache.contains, contains_add_self c.t2 k v hcap,
        Bool.or_true]
  · intro c k w ht hcap
    have htl : lookupKey k c.t1.entries = some w := ht
    simp only [ARCCache.get, UnsafeCache.peek, htl, UnsafeCache.remove]
    constructor
    · exact List.mem_append_left _ (List.mem_singleton.mpr rfl)
    · simp only [ARCCache.contains, contains_add_self c.t2 k w hcap,
        Bool.or_true]

/-- C10 witness: concrete one-entry promotions for all four operations. -/
theorem promotion_fires_eviction_callback_witness :
    (let q : TwoQueueCache Nat Nat :=
      { maxEntries := 2, recentEntries := 0,
        recent := { maxEntries := 2, entries := [(1, 10)] },
        frequent := { maxEntries := 2, entries := [] },
        recentEvict := { maxEntries := 1, entries := [] } }
     let a : ARCCache Nat Nat :=
      { maxEntries := 2, p := 0,
        t1 := { maxEntries := 2, entries := [(1, 10)] },
        b1 := { maxEntries := 2, entries := [] },
        t2 := { maxEntries := 2, entries := [] },
        b2 := { maxEntries := 2, entries := [] } }
     ((1, 10) ∈ (q.get 1).2.2 ∧ (q.get 1).1.contains 1 = true) ∧
     ((1, 10) ∈ (q.add 1 99).2 ∧ (q.add 1 99).1.contains 1 = true) ∧
     ((1, 10) ∈ (a.add 1 99).2 ∧ (a.add 1 99).1.contains 1 = true) ∧
     ((1, 10) ∈ (a.get 1).2.2 ∧ (a.get 1).1.contains 1 = true)) := by
  refine ⟨?_, ?_, ?_, ?_⟩
  · exact (promotion_fires_eviction_callback (K := Nat) (V := Nat)).1
      _ 1 10 (by decide) (by decide) (by decide)
  · exact (promotion_fires_eviction_callback (K := Nat) (V := Nat)).2.1
      _ 1 10 99 (by decide) (by decide) (by decide)
  · exact (promotion_fires_eviction_callback (K := Nat) (V := Nat)).2.2.1
      _ 1 10 99 (by decide) (by decide)
  · exact (promotion_fires_eviction_callback (K := Nat) (V := Nat)).2.2.2
      _ 1 10 (by decide) (by decide)

/-! ### C3: `Clear` on every variant -/

theorem countP_key_one (l : List (K × V)) (k : K)
    (hnd : (l.map Prod.fst).Nodup) (hmem : k ∈ l.map Prod.fst) :
    l.countP (fun x => decide (x.1 = k)) = 1 := by
  induction l with
  | nil => simp at hmem
  | cons e t ih =>
    simp only [List.map_cons, List.nodup_cons] at hnd
    rcases List.mem_cons.mp hmem with hk | hk
    · have hzero : t.countP (fun x => decide (x.1 = k)) = 0 := by
        refine List.countP_eq_zero.mpr ?_
        intro x hx
        simp only [decide_eq_true_eq]
        intro hxk
        exact hnd.1 (hk ▸ hxk ▸ List.mem_map_of_mem Prod.fst hx)
      rw [List.countP_cons, hzero]
      simp [hk]
    · have hne : ¬(e.1 = k) := by
        intro he
        exact hnd.1 (he ▸ hk)
      rw [List.countP_cons]
      simp only [decide_eq_true_eq, hne, if_false]
      exact ih hnd.2 hk

theorem countP_key_zero (l : List (K × V)) (k : K)
    (hmem : k ∉ l.map Prod.fst) :
    l.countP (fun x => decide (x.1 = k)) = 0 := by
  refine List.countP_eq_zero.mpr ?_
  intro x hx
  simp only [decide_eq_true_eq]
  intro hxk
  exact hmem (hxk ▸ List.mem_map_of_mem Prod.fst hx)

/-- C3: `Clear` on every cache variant fires the eviction callback exactly
once per resident entry — an entry counted by `Len()` — and leaves
`Len() = 0` and `Contains(k) = false` for every key (in particular every
previously held one).  For the base engine and the lock wrapper the event
log is literally the entry list; for 2Q and ARC, in any state whose live
engines hold no duplicate keys, are pairwise key-disjoint and share no key
with the ghost engines, each resident entry's key occurs exactly once in
the log.  (2Q/ARC `Clear` also fires the callback for ghost entries —
keys not counted by `Len()` — which the per-resident-entry count is
insensitive to.) -/
theorem clear_contract :
    (∀ (c : UnsafeCache K V),
      c.clear.2 = c.entries ∧ c.clear.1.len = 0 ∧
      (∀ k, c.clear.1.contains k = false) ∧
      ((keysOf c).Nodup → ∀ e ∈ c.entries,
        c.clear.2.countP (fun x => decide (x.1 = e.1)) = 1)) ∧
    (∀ (c : Cache K V),
      c.clear.2 = c.lru.entries ∧ c.clear.1.len = 0 ∧
      (∀ k, c.clear.1.contains k = false) ∧
      ((keysOf c.lru).Nodup → ∀ e ∈ c.lru.entries,
        c.clear.2.countP (fun x => decide (x.1 = e.1)) = 1)) ∧
    (∀ (q : TwoQueueCache K V),
      (keysOf q.recent).Nodup → (keysOf q.frequent).Nodup →
      (∀ k, k ∈ keysOf q.recent → k ∉ keysOf q.frequent) →
      (∀ k, k ∈ keysOf q.recentEvict →
        k ∉ keysOf q.recent ∧ k ∉ keysOf q.frequent) →
      q.clear.1.len = 0 ∧ (∀ k, q.clear.1.contains k = false) ∧
      (∀ e ∈ q.recent.entries ++ q.frequent.entries,
        q.clear.2.countP (fun x => decide (x.1 = e.1)) = 1)) ∧
    (∀ (a : ARCCache K V),
      (keysOf a.t1).Nodup → (keysOf a.t2).Nodup →
      (∀ k, k ∈ keysOf a.t1 → k ∉ keysOf a.t2) →
      (∀ k, k ∈ keysOf a.b1 → k ∉ keysOf a.t1 ∧ k ∉ keysOf a.t2) →
      (∀ k, k ∈ keysOf a.b2 → k ∉ keysOf a.t1 ∧ k ∉ keysOf a.t2) →
      a.clear.1.len = 0 ∧ (∀ k, a.clear.1.contains k = false) ∧
      (∀ e ∈ a.t1.entries ++ a.t2.entries,
        a.clear.2.countP (fun x => decide (x.1 = e.1)) = 1)) := by
  have hbase : ∀ (c : UnsafeCache K V),
      c.clear.2 = c.entries ∧ c.clear.1.len = 0 ∧
      (∀ k, c.clear.1.contains k = false) ∧
      ((keysOf c).Nodup → ∀ e ∈ c.entries,
        c.clear.2.countP (fun x => decide (x.1 = e.1)) = 1) := by
    intro c
    refine ⟨rfl, rfl, fun k => rfl, fun hnd e he => ?_⟩
    exact countP_key_one c.entries e.1 hnd (List.mem_map_of_mem Prod.fst he)
  refine ⟨hbase, ?_, ?_, ?_⟩
  · intro c
    exact hbase c.lru
  · intro q hnr hnf hdisj hghost
    refine ⟨?_, fun k => rfl, ?_⟩
    · simp [TwoQueueCache.clear, TwoQueueCache.len, UnsafeCache.clear,
        UnsafeCache.len]
    · intro e he
      have hev : q.clear.2 =
          q.recent.entries ++ q.frequent.entries ++ q.recentEvict.entries := rfl
      rw [hev, List.countP_append, List.countP_append]
      rcases List.mem_append.mp he with hr | hf
      · have hkr : e.1 ∈ keysOf q.recent := List.mem_map_of_mem Prod.fst hr
        rw [countP_key_one q.recent.entries e.1 hnr hkr,
          countP_key_zero q.frequent.entries e.1 (hdisj e.1 hkr),
          countP_key_zero q.recentEvict.entries e.1 ?_]
        intro hg
        exact (hghost e.1 hg).1 hkr
      · have hkf : e.1 ∈ keysOf q.frequent := List.mem_map_of_mem Prod.fst hf
        have hknr : e.1 ∉ keysOf q.recent := fun hkr => hdisj e.1 hkr hkf
        rw [countP_key_zero q.recent.entries e.1 hknr,
          countP_key_one q.frequent.entries e.1 hnf hkf,
          countP_key_zero q.recentEvict.entries e.1 ?_]
        intro hg
        exact (hghost e.1 hg).2 hkf
  · intro a hn1 hn2 hdisj hg1 hg2
    refine ⟨?_, fun k => rfl, ?_⟩
    · simp [ARCCache.clear, ARCCache.len, UnsafeCache.clear, UnsafeCache.len]
    · intro e he
      have hev : a.clear.2 =
          a.t1.entries ++ a.t2.entries ++ a.b1.entries ++ a.b2.entries := rfl
      rw [hev, List.countP_append, List.countP_append, List.countP_append]
      rcases List.mem_append.mp he with h1 | h2
      · have hk1 : e.1 ∈ keysOf a.t1 := List.mem_map_of_mem Prod.fst h1
        rw [countP_key_one a.t1.entries e.1 hn1 hk1,
          countP_key_zero a.t2.entries e.1 (hdisj e.1 hk1),
          countP_key_zero a.b1.entries e.1 (fun hb => (hg1 e.1 hb).1 hk1),
          countP_key_zero a.b2.entries e.1 (fun hb => (hg2 e.1 hb).1 hk1)]
      · have hk2 : e.1 ∈ keysOf a.t2 := List.mem_map_of_mem Prod.fst h2
        have hkn1 : e.1 ∉ keysOf a.t1 := fun hk1 => hdisj e.1 hk1 hk2
        rw [countP_key_zero a.t1.entries e.1 hkn1,
          countP_key_one a.t2.entries e.1 hn2 hk2,
          countP_key_zero a.b1.entries e.1 (fun hb => (hg1 e.1 hb).2 hk2),
          countP_key_zero a.b2.entries e.1 (fun hb => (hg2 e.1 hb).2 hk2)]

/-- C3 witness: concrete clears of all four variants, each variant holding
the resident pair `(1, 10)` (the 2Q/ARC states also hold a second live
entry and a ghost entry). -/
theorem clear_contract_witness :
    (let c : UnsafeCache Nat Nat := { maxEntries := 2, entries := [(1, 10)] }
     let w : Cache Nat Nat := ⟨{ maxEntries := 2, entries := [(1, 10)] }⟩
     let q : TwoQueueCache Nat Nat :=
      { maxEntries := 2, recentEntries := 0,
        recent := { maxEntries := 2, entries := [(1, 10)] },
        frequent := { maxEntries := 2, entries := [(2, 20)] },
        recentEvict := { maxEntries := 1, entries := [(3, 0)] } }
     let a : ARCCache Nat Nat :=
      { maxEntries := 2, p := 0,
        t1 := { maxEntries := 2, entries := [(1, 10)] },
        b1 := { maxEntries := 2, entries := [(3, 0)] },
        t2 := { maxEntries := 2, entries := [(2, 20)] },
        b2 := { maxEntries := 2, entries := [(4, 0)] } }
     (c.clear.1.len = 0 ∧
       c.clear.2.countP (fun x => decide (x.1 = 1)) = 1) ∧
     (w.clear.1.len = 0 ∧ w.clear.1.contains 1 = false) ∧
     (q.clear.1.len = 0 ∧ q.clear.1.contains 1 = false ∧
       q.clear.2.countP (fun x => decide (x.1 = 1)) = 1) ∧
     (a.clear.1.len = 0 ∧ a.clear.1.contains 1 = false ∧
       a.clear.2.countP (fun x => decide (x.1 = 1)) = 1)) := by
  refine ⟨⟨?_, ?_⟩, ⟨?_, ?_⟩, ⟨?_, ?_, ?_⟩, ⟨?_, ?_, ?_⟩⟩
  · exact ((clear_contract (K := Nat) (V := Nat)).1
      { maxEntries := 2, entries := [(1, 10)] }).2.1
  · exact ((clear_contract (K := Nat) (V := Nat)).1
      { maxEntries := 2, entries := [(1, 10)] }).2.2.2 (by decide)
      (1, 10) (by decide)
  · exact ((clear_contract (K := Nat) (V := Nat)).2.1
      ⟨{ maxEntries := 2, entries := [(1, 10)] }⟩).2.1
  · exact ((clear_contract (K := Nat) (V := Nat)).2.1
      ⟨{ maxEntries := 2, entries := [(1, 10)] }⟩).2.2.1 1
  · exact ((clear_contract (K := Nat) (V := Nat)).2.2.1
      { maxEntries := 2, recentEntries := 0,
        recent := { maxEntries := 2, entries := [(1, 10)] },
        frequent := { maxEntries := 2, entries := [(2, 20)] },
        recentEvict := { maxEntries := 1, entries := [(3, 0)] } }
      (by decide) (by decide) (by decide) (by decide)).1
  · exact ((clear_contract (K := Nat) (V := Nat)).2.2.1
      { maxEntries := 2, recentEntries := 0,
        recent := { maxEntries := 2, entries := [(1, 10)] },
        frequent := { maxEntries := 2, entries := [(2, 20)] },
        recentEvict := { maxEntries := 1, entries := [(3, 0)] } }
      (by decide) (by decide) (by decide) (by decide)).2.1 1
  · exact ((clear_contract (K := Nat) (V := Nat)).2.2.1
      { maxEntries := 2, recentEntries := 0,
        recent := { maxEntries := 2, entries := [(1, 10)] },
        frequent := { maxEntries := 2, entries := [(2, 20)] },
        recentEvict := { maxEntries := 1, entries := [(3, 0)] } }
      (by decide) (by decide) (by decide) (by decide)).2.2 (1, 10) (by decide)
  · exact ((clear_contract (K := Nat) (V := Nat)).2.2.2
      { maxEntries := 2, p := 0,
        t1 := { maxEntries := 2, entries := [(1, 10)] },
        b1 := { maxEntries := 2, entries := [(3, 0)] },
        t2 := { maxEntries := 2, entries := [(2, 20)] },
        b2 := { maxEntries := 2, entries := [(4, 0)] } }
      (by decide) (by decide) (by decide) (by decide) (by decide)).1
  · exact ((clear_contract (K := Nat) (V := Nat)).2.2.2
      { maxEntries := 2, p := 0,
        t1 := { maxEntries := 2, entries := [(1, 10)] },
        b1 := { maxEntries := 2, entries := [(3, 0)] },
        t2 := { maxEntries := 2, entries := [(2, 20)] },
        b2 := { maxEntries := 2, entries := [(4, 0)] } }
      (by decide) (by decide) (by decide) (by decide) (by decide)).2.1 1
  · exact ((clear_contract (K := Nat) (V := Nat)).2.2.2
      { maxEntries := 2, p := 0,
        t1 := { maxEntries := 2, entries := [(1, 10)] },
        b1 := { maxEntries := 2, entries := [(3, 0)] },
        t2 := { maxEntries := 2, entries := [(2, 20)] },
        b2 := { maxEntries := 2, entries := [(4, 0)] } }
      (by decide) (by decide) (by decide) (by decide) (by decide)).2.2
      (1, 10) (by decide)

/-! ### C4 and C5: `Resize` -/

/-- C4: after `Resize` to any non-positive capacity the engine is a
write-through discard: any subsequent sequence of `Add`s has every `Add`
report `evicted = true`, and the length is 0 after each of them (taking
all prefixes of `kvs` as instances gives "after that Add" for every step).
-/
theorem resize_nonpositive_write_through_discard
    (c : UnsafeCache K V) (size : Int) (kvs : List (K × V))
    (hsize : size ≤ 0) :
    (∀ b ∈ (addAll ((c.resize size).1) kvs).2, b = true) ∧
    (addAll ((c.resize size).1) kvs).1.len = 0 := by
  obtain ⟨he, hm, -⟩ := resize_entries c size
  have hempty : (c.resize size).1.entries = [] := by
    rw [he]
    have : c.entries.length - (max ((c.entries.length : Int) - size) 0).toNat = 0 := by
      omega
    rw [this, List.take_zero]
  have main : ∀ (kvs : List (K × V)) (d : UnsafeCache K V),
      d.entries = [] → d.maxEntries ≤ 0 →
      (∀ b ∈ (addAll d kvs).2, b = true) ∧ (addAll d kvs).1.len = 0 := by
    intro kvs
    induction kvs with
    | nil => intro d h1 _; simpa [addAll, UnsafeCache.len] using h1
    | cons kv rest ih =>
      intro d h1 h2
      obtain ⟨k, v⟩ := kv
      have hlk : lookupKey k d.entries = none := by simp [h1, lookupKey]
      have hlt : d.maxEntries < 1 := by omega
      have hstep : (d.add k v) =
          ({ d with entries := [] }, true, [(k, v)]) := by
        simp [UnsafeCache.add, hlk, h1, hlt, lookupKey]
      simp only [addAll, hstep]
      obtain ⟨ihb, ihl⟩ := ih { d with entries := [] } rfl h2
      refine ⟨?_, ihl⟩
      intro b hb
      rcases List.mem_cons.mp hb with hb | hb
      · exact hb
      · exact ihb b hb
  exact main kvs _ hempty (by omega)

/-- C4 witness: a capacity-5 engine resized to −1 discards both of two
subsequent adds, each reporting an eviction. -/
theorem resize_nonpositive_write_through_discard_witness :
    (∀ b ∈ (addAll (((NewUnsafeLru Nat Nat 5).resize (-1)).1)
        [(1, 2), (3, 4)]).2, b = true) ∧
    (addAll (((NewUnsafeLru Nat Nat 5).resize (-1)).1) [(1, 2), (3, 4)]).1.len = 0 :=
  resize_nonpositive_write_through_discard (NewUnsafeLru Nat Nat 5) (-1)
    [(1, 2), (3, 4)] (by decide)

/-- C5 counterexample: `Resize(-1)` on an *empty* capacity-10 engine
returns 1 although zero entries are evicted (no eviction event fires and
the length was and stays 0) — refuting "returns evictedCount, the number
of entries evicted". -/
theorem resize_return_exceeds_evictions :
    ((NewUnsafeLru Nat Nat 10).resize (-1)).2.1 = 1 ∧
    ((NewUnsafeLru Nat Nat 10).resize (-1)).2.2 = [] ∧
    (NewUnsafeLru Nat Nat 10).len = 0 ∧
    ((NewUnsafeLru Nat Nat 10).resize (-1)).1.len = 0 := by
  refine ⟨by decide, by decide, by decide, by decide⟩

/-- C5 (amended): `Resize(newCap)` evicts oldest entries one at a time —
0 evictions when `newCap ≥` length, requests beyond the length are no-ops
— unconditionally sets the capacity to `newCap` even when `newCap ≤ 0`,
and afterwards `Len = min(previous length, max(newCap, 0))`; but its
return value is `max(previous length − newCap, 0)`, the number of
eviction *requests*, which exceeds the number of entries actually evicted
(the eviction-event count, `previous length − new length`) when
`newCap < 0`. -/
theorem resize_contract (c : UnsafeCache K V) (size : Int) :
    (c.resize size).2.1 = max ((c.len : Int) - size) 0 ∧
    (c.resize size).1.maxEntries = size ∧
    (c.resize size).1.entries =
      c.entries.take ((min (c.len : Int) (max size 0)).toNat) ∧
    ((c.resize size).1.len : Int) = min (c.len : Int) (max size 0) ∧
    ((c.resize size).2.2.length : Int) =
      (c.len : Int) - min (c.len : Int) (max size 0) := by
  obtain ⟨he, hm, hr⟩ := resize_entries c size
  have harg : c.entries.length - (max ((c.entries.length : Int) - size) 0).toNat
      = (min ((c.entries.length : Int)) (max size 0)).toNat := by
    omega
  refine ⟨hr, hm, ?_, ?_, ?_⟩
  · rw [he, harg]; rfl
  · have : (c.resize size).1.len = (c.resize size).1.entries.length := rfl
    rw [this, he, harg, List.length_take]
    simp only [UnsafeCache.len]
    omega
  · have hev : (c.resize size).2.2.length =
        min (max ((c.entries.length : Int) - size) 0).toNat c.entries.length := by
      have hd : (if (c.entries.length : Int) - size < 0 then 0
          else (c.entries.length : Int) - size)
          = max ((c.entries.length : Int) - size) 0 := by
        split <;> omega
      simp only [UnsafeCache.resize, hd]
      exact removeOldestN_events _ _
    rw [hev]
    simp only [UnsafeCache.len]
    omega

/-! ### C6: the base engine is a pure LRU

`Op` is a client operation; `runOps` executes a sequence on the engine;
`accessOrder` maintains, alongside the execution, the list of keys ordered
by most recent *counted* access — an insert, or a `Get` that hits — most
recent first.  C6's "the keys retained are exactly the `c` most recently
accessed keys" is the statement `keysOf (runOps …) = (accessOrder …).take c`.
-/

/-- A client operation of the base engine for C6: `Add` or `Get`. -/
inductive Op (K V : Type) where
  | add (k : K) (v : V)
  | get (k : K)

/-- Execute a sequence of operations. -/
def runOps (c : UnsafeCache K V) : List (Op K V) → UnsafeCache K V
  | [] => c
  | Op.add k v :: rest => runOps (c.add k v).1 rest
  | Op.get k :: rest => runOps (c.get k).1 rest

/-- The most-recently-accessed-first key order of a run: an `Add` makes its
key most recent; a `Get` does if and only if it hits. -/
def accessOrder (c : UnsafeCache K V) (ord : List K) :
    List (Op K V) → List K
  | [] => ord
  | Op.add k v :: rest => accessOrder (c.add k v).1 (k :: ord.erase k) rest
  | Op.get k :: rest =>
    accessOrder (c.get k).1
      (if c.contains k then k :: ord.erase k else ord) rest

theorem take_erase_mem (k : K) :
    ∀ (l : List K) (m : Nat), k ∈ l.take (m + 1) →
      (l.take (m + 1)).erase k = (l.erase k).take m := by
  intro l
  induction l with
  | nil => intro m h; simp at h
  | cons a t ih =>
    intro m h
    rw [List.take_succ_cons] at h ⊢
    by_cases hak : a = k
    · subst hak
      rw [List.erase_cons_head, List.erase_cons_head]
    · have hk : k ∈ t.take m := by
        rcases List.mem_cons.mp h with h1 | h1
        · exact absurd h1.symm hak
        · exact h1
      cases m with
      | zero => simp at hk
      | succ n =>
        have h1 : (a :: t.take (n + 1)).erase k = a :: (t.take (n + 1)).erase k := by
          simp [List.erase_cons, hak]
        have h2 : (a :: t).erase k = a :: t.erase k := by
          simp [List.erase_cons, hak]
        rw [h1, h2, List.take_succ_cons, ih n hk]

theorem take_erase_not_mem (k : K) :
    ∀ (l : List K) (n m : Nat), k ∉ l.take n → m < n →
      (l.erase k).take m = l.take m := by
  intro l
  induction l with
  | nil => intro n m _ _; simp
  | cons a t ih =>
    intro n m h hm
    cases n with
    | zero => omega
    | succ n' =>
      rw [List.take_succ_cons] at h
      have hak : ¬(a = k) := fun he => h (he ▸ List.mem_cons_self a _)
      have hkt : k ∉ t.take n' := fun hmt => h (List.mem_cons_of_mem _ hmt)
      have he : (a :: t).erase k = a :: t.erase k := by
        simp [List.erase_cons, hak]
      rw [he]
      cases m with
      | zero => simp
      | succ m' =>
        rw [List.take_succ_cons, List.take_succ_cons, ih n' m' hkt (by omega)]

theorem nodup_cons_erase {ord : List K} (k : K) (h : ord.Nodup) :
    (k :: ord.erase k).Nodup := by
  refine List.Nodup.cons ?_ (h.erase k)
  intro hmem
  exact absurd ((h.mem_erase_iff).mp hmem).1 (by simp)

/-- The coupled invariant behind C6: running any operation sequence from a
state whose keys (newest first) are the first `m + 1` entries of a
duplicate-free access order keeps that correspondence. -/
theorem runOps_inv (m : Nat) :
    ∀ (ops : List (Op K V)) (c : UnsafeCache K V) (ord : List K),
      c.maxEntries = ((m + 1 : Nat) : Int) →
      keysOf c = ord.take (m + 1) → ord.Nodup →
      keysOf (runOps c ops) = (accessOrder c ord ops).take (m + 1) ∧
      (accessOrder c ord ops).Nodup ∧
      (runOps c ops).maxEntries = ((m + 1 : Nat) : Int) := by
  intro ops
  induction ops with
  | nil => intro c ord h1 h2 h3; exact ⟨h2, h3, h1⟩
  | cons op rest ih =>
    intro c ord h1 h2 h3
    have hlentake := congrArg List.length h2
    simp only [keysOf, List.length_map, List.length_take] at hlentake
    cases op with
    | add k v =>
      cases hl : lookupKey k c.entries with
      | some w =>
        have hkmem : k ∈ keysOf c := by
          rw [← contains_iff_mem]
          unfold UnsafeCache.contains
          rw [hl]
          rfl
        have hkeys : keysOf (c.add k v).1 = k :: (keysOf c).erase k := by
          simp [UnsafeCache.add, hl, keysOf, map_fst_eraseKey]
        have hcorr : keysOf (c.add k v).1 = (k :: ord.erase k).take (m + 1) := by
          rw [hkeys, h2, List.take_succ_cons,
            take_erase_mem k ord m (h2 ▸ hkmem)]
        have hmax : (c.add k v).1.maxEntries = ((m + 1 : Nat) : Int) := by
          rw [add_maxEntries]; exact h1
        simpa [runOps, accessOrder] using
          ih (c.add k v).1 (k :: ord.erase k) hmax hcorr (nodup_cons_erase k h3)
      | none =>
        have hknot : k ∉ keysOf c := by
          have := (lookupKey_eq_none_iff k c.entries).mp hl
          simpa [keysOf] using this
        have hknotord : k ∉ ord.take (m + 1) := h2 ▸ hknot
        by_cases hev : ((((k, v) :: c.entries).length : Int) > c.maxEntries)
        · have hev' : m + 1 < c.entries.length + 1 := by
            have hint : ((m + 1 : Nat) : Int) < ((c.entries.length + 1 : Nat) : Int) := by
              simpa [h1] using hev
            exact_mod_cast hint
          have hlen : c.entries.length = m + 1 := by omega
          have hne : c.entries ≠ [] := by
            intro h0
            rw [h0] at hlen
            simp at hlen
          have hstate : (c.add k v).1 =
              { c with entries := (k, v) :: c.entries.dropLast } := by
            simp only [UnsafeCache.add, hl]
            rw [if_pos hev]
            simp [List.dropLast_cons_of_ne_nil hne]
          have hkeys : keysOf (c.add k v).1 = k :: (keysOf c).dropLast := by
            rw [hstate]
            simp [keysOf, ← List.map_dropLast]
          have hordlen : m + 1 ≤ ord.length := by omega
          have hdrop : (keysOf c).dropLast = ord.take m := by
            rw [h2, List.dropLast_eq_take, List.take_take, List.length_take]
            congr 1
            omega
          have hcorr : keysOf (c.add k v).1 = (k :: ord.erase k).take (m + 1) := by
            rw [hkeys, hdrop, List.take_succ_cons,
              take_erase_not_mem k ord (m + 1) m hknotord (by omega)]
          have hmax : (c.add k v).1.maxEntries = ((m + 1 : Nat) : Int) := by
            rw [add_maxEntries]; exact h1
          simpa [runOps, accessOrder] using
            ih (c.add k v).1 (k :: ord.erase k) hmax hcorr (nodup_cons_erase k h3)
        · have hlenle : c.entries.length ≤ m := by
            have hint : ((c.entries.length + 1 : Nat) : Int) ≤ ((m + 1 : Nat) : Int) := by
              simpa [h1, not_lt] using hev
            have hn : c.entries.length + 1 ≤ m + 1 := by exact_mod_cast hint
            omega
          have hordle : ord.length ≤ m := by omega
          have hordtake : ord.take (m + 1) = ord :=
            List.take_of_length_le (by omega)
          have hknotall : k ∉ ord := by
            rw [← hordtake]; exact hknotord
          have hstate : (c.add k v).1 = { c with entries := (k, v) :: c.entries } := by
            simp only [UnsafeCache.add, hl]
            rw [if_neg hev]
          have hcorr : keysOf (c.add k v).1 = (k :: ord.erase k).take (m + 1) := by
            rw [List.erase_of_not_mem hknotall, List.take_succ_cons, hstate]
            show k :: keysOf c = k :: ord.take m
            rw [h2, hordtake, List.take_of_length_le hordle]
          have hmax : (c.add k v).1.maxEntries = ((m + 1 : Nat) : Int) := by
            rw [add_maxEntries]; exact h1
          simpa [runOps, accessOrder] using
            ih (c.add k v).1 (k :: ord.erase k) hmax hcorr (nodup_cons_erase k h3)
    | get k =>
      cases hl : lookupKey k c.entries with
      | some w =>
        have hc : c.contains k = true := by
          unfold UnsafeCache.contains
          rw [hl]
          rfl
        have hkmem : k ∈ keysOf c := (contains_iff_mem c k).mp hc
        have hkeys : keysOf (c.get k).1 = k :: (keysOf c).erase k := by
          simp [UnsafeCache.get, hl, keysOf, map_fst_eraseKey]
        have hcorr : keysOf (c.get k).1 = (k :: ord.erase k).take (m + 1) := by
          rw [hkeys, h2, List.take_succ_cons,
            take_erase_mem k ord m (h2 ▸ hkmem)]
        have hmax : (c.get k).1.maxEntries = ((m + 1 : Nat) : Int) := by
          have : (c.get k).1 = { c with entries := (k, w) :: eraseKey k c.entries } := by
            simp [UnsafeCache.get, hl]
          rw [this]; exact h1
        simpa [runOps, accessOrder, hc] using
          ih (c.get k).1 (k :: ord.erase k) hmax hcorr (nodup_cons_erase k h3)
      | none =>
        have hc : c.contains k = false := by
          unfold UnsafeCache.contains
          rw [hl]
          rfl
        have hstate : (c.get k).1 = c := by
          simp [UnsafeCache.get, hl]
        simpa [runOps, accessOrder, hc, hstate] using ih c ord h1 h2 h3

/-- C6: on a base engine constructed with any capacity (so effective
capacity `e ≥ 1` after defaulting), for every sequence of Add/Get
operations `Len()` never exceeds `e` and the retained keys are exactly the
`e` most recently accessed (inserted or Get-hit) keys — `Keys()` lists
them oldest-first, i.e. it is the reverse of the first `e` entries of the
most-recent-first access order; and concretely, with capacity 10, adding
keys 0..9 then 10..19 leaves `Len() = 10` and `Keys() = [10, …, 19]`. -/
theorem base_engine_pure_lru :
    (∀ (A B : Type) [DecidableEq A] (cap : Int) (ops : List (Op A B)),
      (runOps (NewUnsafeLru A B cap) ops).len ≤
        (if cap ≤ 0 then defaultSize else cap).toNat ∧
      (runOps (NewUnsafeLru A B cap) ops).keys =
        ((accessOrder (NewUnsafeLru A B cap) [] ops).take
          (if cap ≤ 0 then defaultSize else cap).toNat).reverse) ∧
    ((runOps (NewUnsafeLru Nat Nat 10)
        ((List.range 20).map (fun i => Op.add i i))).len = 10 ∧
      (runOps (NewUnsafeLru Nat Nat 10)
        ((List.range 20).map (fun i => Op.add i i))).keys =
        [10, 11, 12, 13, 14, 15, 16, 17, 18, 19]) := by
  constructor
  · intro A B instA cap ops
    have hepos : (1 : Int) ≤ (if cap ≤ 0 then defaultSize else cap) := by
      unfold defaultSize
      split <;> omega
    obtain ⟨m, hm⟩ : ∃ m : Nat, (if cap ≤ 0 then defaultSize else cap).toNat = m + 1 :=
      ⟨(if cap ≤ 0 then defaultSize else cap).toNat - 1, by omega⟩
    have hmax : (NewUnsafeLru A B cap).maxEntries = ((m + 1 : Nat) : Int) := by
      show (if cap ≤ 0 then defaultSize else cap) = ((m + 1 : Nat) : Int)
      omega
    have hinv := runOps_inv m ops (NewUnsafeLru A B cap) [] hmax
      (by simp [keysOf, NewUnsafeLru]) List.nodup_nil
    have hlen : (runOps (NewUnsafeLru A B cap) ops).len =
        (keysOf (runOps (NewUnsafeLru A B cap) ops)).length := by
      simp [UnsafeCache.len, keysOf]
    constructor
    · rw [hlen, hinv.1, List.length_take, hm]
      omega
    · show (keysOf (runOps (NewUnsafeLru A B cap) ops)).reverse = _
      rw [hinv.1, hm]
  · exact ⟨by decide, by decide⟩

/-! ### C9: Add / Peek / Get round trip -/

/-- C9: after `Add(k,v)` on an engine of capacity ≥ 1, `Peek(k)` returns
`(v, true)` — `Peek` is embedded as a pure observer because the source
routine only reads the index, so it cannot alter the `Keys()` sequence —
the pair `(k,v)` sits at the front (newest position) of the recency
order, and `Get(k)` returns `(v, true)` while leaving the state exactly
as it was (the key is already at the front, and `Get`'s move-to-front
keeps it there). -/
theorem add_peek_get_roundtrip (c : UnsafeCache K V) (k : K) (v : V)
    (hcap : 1 ≤ c.maxEntries) :
    ((c.add k v).1.peek k = some v) ∧
    ((c.add k v).1.entries.head? = some (k, v)) ∧
    (((c.add k v).1.get k).2 = some v) ∧
    (((c.add k v).1.get k).1 = (c.add k v).1) := by
  obtain ⟨t, ht⟩ := add_head c k v hcap
  rw [ht]
  refine ⟨?_, rfl, ?_, ?_⟩
  · simp [UnsafeCache.peek, lookupKey]
  · simp [UnsafeCache.get, lookupKey]
  · simp [UnsafeCache.get, lookupKey, eraseKey]

/-- C9 witness at a concrete engine. -/
theorem add_peek_get_roundtrip_witness :
    (((NewUnsafeLru Nat Nat 3).add 1 2).1.peek 1 = some 2) ∧
    (((NewUnsafeLru Nat Nat 3).add 1 2).1.entries.head? = some (1, 2)) ∧
    ((((NewUnsafeLru Nat Nat 3).add 1 2).1.get 1).2 = some 2) ∧
    ((((NewUnsafeLru Nat Nat 3).add 1 2).1.get 1).1 =
      ((NewUnsafeLru Nat Nat 3).add 1 2).1) :=
  add_peek_get_roundtrip (NewUnsafeLru Nat Nat 3) 1 2 (by decide)

end Lru
